import Mathlib

/-!
The invoice editor of `src/App.jsx` (factura).

A shallow embedding of the state handled by the `App` component and of the
functions that read and change it.

Modelling conventions

* A JavaScript number held in the state (quantity, price, tax rate) is a finite
  number, modelled exactly by a rational: the arithmetic of the totals is exact.
  IEEE-754 rounding, overflow and arithmetic on the non-finite values are outside
  this model. `NaN` and `Infinity` appear only where the code can produce them
  from a text, as results of `parseInt` and `parseFloat` (type `JSNumber`).
* `useState` is modelled by explicit state passing: a handler takes the current
  value of `items` (or `invoiceData`) and returns the value it hands to the
  setter. Every handler call sees the state left by the previous one, which is
  what React does for handlers fired by separate events.
* `Date.now()` reads the clock of the environment: `addItem` takes the value read
  as an argument.
-/

namespace Factura

/-! ## Data model -/

/-- One row of `items`: `{ id, description, quantity, price }`. -/
structure LineItem where
  id : Int
  description : String
  quantity : ℚ
  price : ℚ
deriving DecidableEq

/-- The `invoiceData` object. -/
structure InvoiceData where
  number : String
  date : String
  dueDate : String
  currency : String
  taxRate : ℚ
  notes : String
  paymentMethod : String
  bankDetails : String
deriving DecidableEq

/-- Initial value of `items`. -/
def initialItems : List LineItem :=
  [ { id := 1, description := "Diseño de Identidad Visual", quantity := 1, price := 500 },
    { id := 2, description := "Desarrollo Web One-Page", quantity := 1, price := 800 } ]

/-! ## Calculations -/

/-- `items.reduce((acc, item) => acc + (item.quantity * item.price), 0)`. -/
def subtotal (items : List LineItem) : ℚ :=
  items.foldl (fun acc item => acc + item.quantity * item.price) 0

/-- `subtotal * (invoiceData.taxRate / 100)`. -/
def taxAmount (items : List LineItem) (invoiceData : InvoiceData) : ℚ :=
  subtotal items * (invoiceData.taxRate / 100)

/-- `subtotal + taxAmount`. -/
def total (items : List LineItem) (invoiceData : InvoiceData) : ℚ :=
  subtotal items + taxAmount items invoiceData

/-- The sum the specification writes for the subtotal: Σ quantity_i * unitPrice_i. -/
def specSubtotal (items : List LineItem) : ℚ :=
  (items.map (fun item => item.quantity * item.price)).sum

/-! ## Handlers of the line items -/

/-- The three properties of a row that the editor writes through `handleItemChange`. -/
inductive Field where
  | description
  | quantity
  | price
deriving DecidableEq

/-- Type of the value each call site passes for a field: the text of the
description input, a number for quantity and price. -/
@[reducible] def Field.Value : Field → Type
  | .description => String
  | .quantity => ℚ
  | .price => ℚ

/-- The object spread `{ ...item, [field]: value }`. -/
def LineItem.setField (item : LineItem) : (field : Field) → field.Value → LineItem
  | .description, value => { item with description := value }
  | .quantity, value => { item with quantity := value }
  | .price, value => { item with price := value }

/-- Reading `item[field]`. -/
def LineItem.getField (item : LineItem) : (field : Field) → field.Value
  | .description => item.description
  | .quantity => item.quantity
  | .price => item.price

/-- `items.map(item => item.id === id ? { ...item, [field]: value } : item)`. -/
def handleItemChange (items : List LineItem) (id : Int) (field : Field) (value : field.Value) :
    List LineItem :=
  items.map (fun item => if item.id = id then item.setField field value else item)

/-- The row `addItem` creates: `{ id: Date.now(), description: '', quantity: 1, price: 0 }`. -/
def newItem (now : Int) : LineItem :=
  { id := now, description := "", quantity := 1, price := 0 }

/-- `[...items, { id: Date.now(), description: '', quantity: 1, price: 0 }]`, with `now` the
value read from `Date.now()`. -/
def addItem (items : List LineItem) (now : Int) : List LineItem :=
  items ++ [newItem now]

/-- `if (items.length > 1) setItems(items.filter(item => item.id !== id))`; when the test
fails the setter is not called and `items` stays as it is. -/
def removeItem (items : List LineItem) (id : Int) : List LineItem :=
  if items.length > 1 then items.filter (fun item => item.id != id) else items

/-- One call of a handler of the line items. -/
inductive Action where
  | addItem (now : Int)
  | removeItem (id : Int)
  | handleItemChange (id : Int) (field : Field) (value : field.Value)

/-- Effect of one handler call on `items`. -/
def step (items : List LineItem) : Action → List LineItem
  | .addItem now => addItem items now
  | .removeItem id => removeItem items id
  | .handleItemChange id field value => handleItemChange items id field value

/-- Effect of a sequence of handler calls, first to last. -/
def run (items : List LineItem) (actions : List Action) : List LineItem :=
  actions.foldl step items

/-- The ids of the rows, in order. -/
def ids (items : List LineItem) : List Int :=
  items.map (fun item => item.id)

/-- Every `addItem` of the sequence reads from `Date.now()` a value that is not the id of a
row present when it is called. -/
def freshClock : List LineItem → List Action → Bool
  | _, [] => true
  | items, .addItem now :: rest =>
    decide (now ∉ ids items) && freshClock (addItem items now) rest
  | items, .removeItem id :: rest => freshClock (removeItem items id) rest
  | items, .handleItemChange id field value :: rest =>
    freshClock (handleItemChange items id field value) rest

/-! ## Numeric inputs: `parseInt(text) || 0` and `parseFloat(text) || 0`

`parseInt` and `parseFloat` are functions of the language, not of this repository; they
are modelled after their definition in ECMAScript (sections 19.2.5 and 19.2.4), on the
characters of the text. A literal is read exactly: it is not rounded to double precision
and never overflows. -/

/-- A number as `parseInt` and `parseFloat` return it and as `||` tests it. -/
inductive JSNumber where
  | nan
  | infinity (negative : Bool)
  | finite (value : ℚ)
deriving DecidableEq

/-- A `StrDecimalLiteral` as read from a text: `Infinity`, or digits with the power of ten
that the decimal point and the exponent part give them. -/
inductive StrDecimalLiteral where
  | infinity (negative : Bool)
  | decimal (negative : Bool) (digits : Nat) (exponent : Int)
deriving DecidableEq

/-- The number a literal denotes (`StringNumericValue`). -/
def StrDecimalLiteral.value : StrDecimalLiteral → JSNumber
  | .infinity negative => .infinity negative
  | .decimal negative digits exponent =>
    .finite ((if negative then -1 else 1) * (digits : ℚ) * (10 : ℚ) ^ exponent)

theorem subtotal_foldl_acc (items : List LineItem) (acc : ℚ) :
    items.foldl (fun acc item => acc + item.quantity * item.price) acc
      = acc + specSubtotal items := by
  induction items generalizing acc with
  | nil => simp [specSubtotal]
  | cons item rest ih =>
    simp only [List.foldl_cons, ih, specSubtotal, List.map_cons, List.sum_cons]
    ring

theorem ids_handleItemChange (items : List LineItem) (id : Int) (field : Field)
    (value : field.Value) : ids (handleItemChange items id field value) = ids items := by
  unfold ids handleItemChange
  rw [List.map_map]
  apply List.map_congr_left
  intro item _
  by_cases h : item.id = id
  · cases field <;> simp [h, LineItem.setField]
  · simp [h]

theorem ids_addItem (items : List LineItem) (now : Int) :
    ids (addItem items now) = ids items ++ [now] := by
  simp [ids, addItem, newItem]

theorem ids_filter_sublist (items : List LineItem) (p : LineItem → Bool) :
    (ids (items.filter p)).Sublist (ids items) :=
  List.Sublist.map _ (List.filter_sublist items)

theorem nodup_ids_removeItem (items : List LineItem) (id : Int) (hnd : (ids items).Nodup) :
    (ids (removeItem items id)).Nodup := by
  unfold removeItem
  split
  · exact List.Nodup.sublist (ids_filter_sublist items _) hnd
  · exact hnd

theorem step_nodup (items : List LineItem) (action : Action) (rest : List Action)
    (hnd : (ids items).Nodup) (hfresh : freshClock items (action :: rest) = true) :
    (ids (step items action)).Nodup ∧ freshClock (step items action) rest = true := by
  cases action with
  | addItem now =>
    simp only [freshClock, Bool.and_eq_true, decide_eq_true_eq] at hfresh
    refine ⟨?_, hfresh.2⟩
    show (ids (addItem items now)).Nodup
    rw [ids_addItem]
    refine List.Nodup.append hnd (List.nodup_singleton now) ?_
    intro a ha hb
    rw [List.mem_singleton] at hb
    exact hfresh.1 (hb ▸ ha)
  | removeItem id =>
    simp only [freshClock] at hfresh
    exact ⟨nodup_ids_removeItem items id hnd, hfresh⟩
  | handleItemChange id field value =>
    simp only [freshClock] at hfresh
    refine ⟨?_, hfresh⟩
    show (ids (handleItemChange items id field value)).Nodup
    rw [ids_handleItemChange]
    exact hnd

/-- Invariant of the runs in which the clock never repeats an id in use: the ids stay
pairwise distinct. -/
theorem run_nodup (actions : List Action) :
    ∀ items : List LineItem, (ids items).Nodup → freshClock items actions = true →
      (ids (run items actions)).Nodup := by
  induction actions with
  | nil => intro items hnd _; exact hnd
  | cons action rest ih =>
    intro items hnd hfresh
    have h := step_nodup items action rest hnd hfresh
    exact ih (step items action) h.1 h.2

/-- C4: on a collection of exactly one row removeItem changes nothing whatever the id, so
any number of repeated removal attempts leaves that same single row. -/
theorem removeItem_single_noop (items : List LineItem) (hone : items.length = 1) :
    (∀ id : Int, removeItem items id = items)
      ∧ (∀ attempts : List Int, attempts.foldl removeItem items = items)
      ∧ (∀ attempts : List Int, run items (attempts.map Action.removeItem) = items) := by
  have h1 : ∀ id : Int, removeItem items id = items := by
    intro id
    simp [removeItem, hone]
  have h2 : ∀ attempts : List Int, attempts.foldl removeItem items = items := by
    intro attempts
    induction attempts with
    | nil => rfl
    | cons id rest ih => simpa [List.foldl_cons, h1 id] using ih
  refine ⟨h1, h2, ?_⟩
  intro attempts
  induction attempts with
  | nil => rfl
  | cons id rest ih => simpa [run, step, h1 id] using ih

theorem removeItem_single_noop_witness :
    [newItem 5].length = 1 ∧ removeItem [newItem 5] 5 = [newItem 5]
      ∧ [5, 5, 7].foldl removeItem [newItem 5] = [newItem 5] :=
  ⟨rfl, (removeItem_single_noop [newItem 5] rfl).1 5,
    (removeItem_single_noop [newItem 5] rfl).2.1 [5, 5, 7]⟩

theorem length_filter_add_countP (items : List LineItem) (id : Int) :
    (items.filter (fun item => item.id != id)).length
      + items.countP (fun item => item.id = id) = items.length := by
  induction items with
  | nil => simp
  | cons item rest ih =>
    by_cases h : item.id = id
    · have hdrop : (item.id != id) = false := by simp [h]
      rw [List.filter_cons, hdrop, List.countP_cons_of_pos _ _ (by simpa using h)]
      simp only [Bool.false_eq_true, if_false, List.length_cons]
      omega
    · have hkeep : (item.id != id) = true := by simp [h]
      rw [List.filter_cons, hkeep, List.countP_cons_of_neg _ _ (by simpa using h)]
      simp only [if_true, List.length_cons]
      omega

/-- C5: on a collection of more than one row removeItem removes the rows with the given id
and nothing else. No row of the result has that id; the result is a sublist of the old
collection (same rows, same relative order) that keeps every row with another id as often
as before; when exactly one row matches the size drops by exactly 1, and when none matches
the collection is unchanged. -/
theorem removeItem_removes_matching (items : List LineItem) (id : Int)
    (hmany : 1 < items.length) :
    (∀ item ∈ removeItem items id, item.id ≠ id)
      ∧ (removeItem items id).Sublist items
      ∧ (∀ item : LineItem, item.id ≠ id →
          (removeItem items id).count item = items.count item)
      ∧ (∀ item ∈ items, item.id ≠ id → item ∈ removeItem items id)
      ∧ (items.countP (fun item => item.id = id) = 1 →
          (removeItem items id).length + 1 = items.length)
      ∧ (items.countP (fun item => item.id = id) = 0 → removeItem items id = items) := by
  have hrem : removeItem items id = items.filter (fun item => item.id != id) := by
    simp [removeItem, hmany]
  have hlen := length_filter_add_countP items id
  rw [hrem]
  refine ⟨?_, List.filter_sublist items, ?_, ?_, ?_, ?_⟩
  · intro item hitem
    simpa using (List.mem_filter.mp hitem).2
  · intro item hne
    rw [List.count_filter]
    simpa using hne
  · intro item hitem hne
    exact List.mem_filter.mpr ⟨hitem, by simpa using hne⟩
  · intro hone
    omega
  · intro hnone
    apply List.filter_eq_self.mpr
    intro item hitem
    have := (List.countP_eq_zero.mp hnone) item hitem
    simpa using this

theorem removeItem_removes_matching_witness :
    1 < initialItems.length
      ∧ initialItems.countP (fun item => item.id = 1) = 1
      ∧ (removeItem initialItems 1).length + 1 = initialItems.length
      ∧ (removeItem initialItems 1).Sublist initialItems :=
  ⟨by decide, by decide,
    (removeItem_removes_matching initialItems 1 (by decide)).2.2.2.2.1 (by decide),
    (removeItem_removes_matching initialItems 1 (by decide)).2.1⟩

/-- C6: addItem yields the old collection followed by exactly one new row with empty
description, quantity 1 and price 0: the size grows by 1 and every row already present
keeps its position and all its fields. -/
theorem addItem_appends_blank_row (items : List LineItem) (now : Int) :
    addItem items now
        = items ++ [{ id := now, description := "", quantity := 1, price := 0 }]
      ∧ (addItem items now).length = items.length + 1
      ∧ (∀ i : Nat, i < items.length → (addItem items now)[i]? = items[i]?)
      ∧ (∃ row : LineItem, (addItem items now)[items.length]? = some row
          ∧ row.description = "" ∧ row.quantity = 1 ∧ row.price = 0) := by
  refine ⟨rfl, by simp [addItem], ?_, ?_⟩
  · intro i hi
    simp [addItem, List.getElem?_append_left hi]
  · exact ⟨newItem now, by simp [addItem], rfl, rfl, rfl⟩

theorem addItem_appends_blank_row_witness :
    0 < initialItems.length ∧ (addItem initialItems 1700000000000)[0]? = initialItems[0]? :=
  ⟨by decide, (addItem_appends_blank_row initialItems 1700000000000).2.2.1 0 (by decide)⟩

theorem setField_frame (item : LineItem) (field : Field) (value : field.Value) :
    (item.setField field value).id = item.id
      ∧ (item.setField field value).getField field = value
      ∧ (∀ other : Field, other ≠ field →
          (item.setField field value).getField other = item.getField other) := by
  cases field <;> refine ⟨rfl, rfl, ?_⟩ <;> intro other hne <;> cases other <;>
    first
      | rfl
      | exact absurd rfl hne

/-- C7: handleItemChange replaces the given field on the rows whose id matches and changes
nothing else: size, order and ids are preserved; at every position the row is the old row
with that field replaced when its id matches, and the old row itself otherwise; replacing
a field keeps the id and the other two fields; and when no row has the id the collection
is unchanged. -/
theorem handleItemChange_replaces_one_field (items : List LineItem) (id : Int)
    (field : Field) (value : field.Value) :
    (handleItemChange items id field value).length = items.length
      ∧ ids (handleItemChange items id field value) = ids items
      ∧ (∀ (i : Nat) (item : LineItem), items[i]? = some item →
          (item.id = id →
            (handleItemChange items id field value)[i]? = some (item.setField field value))
          ∧ (item.id ≠ id → (handleItemChange items id field value)[i]? = some item))
      ∧ (∀ item : LineItem,
          (item.setField field value).id = item.id
            ∧ (item.setField field value).getField field = value
            ∧ (∀ other : Field, other ≠ field →
                (item.setField field value).getField other = item.getField other))
      ∧ (id ∉ ids items → handleItemChange items id field value = items) := by
  refine ⟨by simp [handleItemChange], ids_handleItemChange items id field value, ?_,
    fun item => setField_frame item field value, ?_⟩
  · intro i item hi
    constructor
    · intro hid
      simp [handleItemChange, List.getElem?_map, hi, hid]
    · intro hid
      simp [handleItemChange, List.getElem?_map, hi, hid]
  · intro hnot
    unfold handleItemChange
    conv_rhs => rw [← List.map_id items]
    apply List.map_congr_left
    intro item hitem
    have : item.id ≠ id := by
      intro hc
      apply hnot
      rw [← hc]
      exact List.mem_map_of_mem _ hitem
    simp [this]

theorem handleItemChange_replaces_one_field_witness :
    (9 : Int) ∉ ids initialItems
      ∧ handleItemChange initialItems 9 Field.price (25 : ℚ) = initialItems :=
  ⟨by decide,
    (handleItemChange_replaces_one_field initialItems 9 Field.price (25 : ℚ)).2.2.2.2
      (by decide)⟩

/-! ## Ids -/

theorem run_addItem (nows : List Int) :
    ∀ items : List LineItem,
      run items (nows.map Action.addItem) = items ++ nows.map newItem := by
  induction nows with
  | nil => intro items; simp [run]
  | cons now rest ih =>
    intro items
    have h := ih (addItem items now)
    simp only [run] at h
    simp only [run, List.map_cons, List.foldl_cons, step, h]
    simp [addItem]

theorem run_removeItem_keeps_last (removals : List Int) (last : LineItem)
    (hlast : last.id ∉ removals) :
    ∀ older : List LineItem,
      run (older ++ [last]) (removals.map Action.removeItem)
        = older.filter (fun item => decide (item.id ∉ removals)) ++ [last] := by
  induction removals with
  | nil => intro older; simp [run]
  | cons id rest ih =>
    intro older
    have hne : last.id ≠ id := fun hc => hlast (hc ▸ List.mem_cons_self _ _)
    have hrest : last.id ∉ rest := fun hc => hlast (List.mem_cons_of_mem _ hc)
    have hstep : removeItem (older ++ [last]) id
        = older.filter (fun item => item.id != id) ++ [last] := by
      cases older with
      | nil => simp [removeItem]
      | cons first more =>
        have hlen : 1 < (first :: more ++ [last]).length := by simp
        simp only [removeItem, hlen, if_true, List.filter_append]
        simp [hne]
    have h := ih hrest (older.filter (fun item => item.id != id))
    simp only [run] at h
    simp only [run, List.map_cons, List.foldl_cons, step, hstep, h, List.filter_filter]
    congr 1
    apply List.filter_congr
    intro item _
    by_cases hid : item.id = id <;> simp [hid]

/-- C10: from a collection with pairwise-distinct ids, N ≥ 1 addItem calls, each reading a
clock value that is not an id in use, followed by one removeItem call on the id of every
row except the last one, in any order, leave exactly one row: the one inserted last. -/
theorem add_then_remove_all_but_newest (items : List LineItem) (nows removals : List Int)
    (hnd : (ids items).Nodup) (hN : nows ≠ [])
    (hfresh : freshClock items (nows.map Action.addItem) = true)
    (hremovals : removals.Perm (ids (run items (nows.map Action.addItem))).dropLast) :
    run (run items (nows.map Action.addItem)) (removals.map Action.removeItem)
        = [newItem (nows.getLast hN)]
      ∧ (run (run items (nows.map Action.addItem))
          (removals.map Action.removeItem)).length = 1 := by
  have hnd2 := run_nodup (nows.map Action.addItem) items hnd hfresh
  have hsplit : nows = nows.dropLast ++ [nows.getLast hN] :=
    (List.dropLast_append_getLast hN).symm
  have hrun : run items (nows.map Action.addItem)
      = (items ++ nows.dropLast.map newItem) ++ [newItem (nows.getLast hN)] := by
    rw [run_addItem]
    conv_lhs => rw [hsplit]
    simp
  rw [hrun] at hnd2 hremovals ⊢
  have hids : ids ((items ++ nows.dropLast.map newItem) ++ [newItem (nows.getLast hN)])
      = ids (items ++ nows.dropLast.map newItem) ++ [nows.getLast hN] := by
    simp [ids, newItem]
  rw [hids] at hnd2 hremovals
  rw [List.dropLast_concat] at hremovals
  have hlast : (newItem (nows.getLast hN)).id ∉ removals := by
    intro hc
    have hmem : nows.getLast hN ∈ ids (items ++ nows.dropLast.map newItem) :=
      hremovals.mem_iff.mp hc
    have hdisj := (List.nodup_append.mp hnd2).2.2
    exact hdisj hmem (List.mem_singleton_self _)
  have hkey := run_removeItem_keeps_last removals (newItem (nows.getLast hN)) hlast
    (items ++ nows.dropLast.map newItem)
  have hnone : (items ++ nows.dropLast.map newItem).filter
      (fun item => decide (item.id ∉ removals)) = [] := by
    apply List.filter_eq_nil_iff.mpr
    intro item hitem
    have : item.id ∈ removals :=
      hremovals.mem_iff.mpr (List.mem_map_of_mem (fun item => item.id) hitem)
    simpa using this
  rw [hkey, hnone]
  exact ⟨rfl, rfl⟩

theorem add_then_remove_all_but_newest_witness :
    (ids initialItems).Nodup
      ∧ freshClock initialItems ([1700000000000, 1700000000001].map Action.addItem) = true
      ∧ [1700000000000, 2, 1].Perm
          (ids (run initialItems
            ([1700000000000, 1700000000001].map Action.addItem))).dropLast
      ∧ run (run initialItems ([1700000000000, 1700000000001].map Action.addItem))
            ([1700000000000, 2, 1].map Action.removeItem)
          = [newItem 1700000000001] :=
  ⟨by decide, by decide, by decide,
    (add_then_remove_all_but_newest initialItems [1700000000000, 1700000000001]
      [1700000000000, 2, 1] (by decide) (by decide) (by decide) (by decide)).1⟩

/-! ## Numeric inputs -/

theorem subtotal_eq_specSubtotal (items : List LineItem) :
    subtotal items = specSubtotal items := by
  have h := subtotal_foldl_acc items 0
  simpa [subtotal] using h

theorem specSubtotal_handleItemChange_description (items : List LineItem) (id : Int)
    (value : String) :
    specSubtotal (handleItemChange items id Field.description value) = specSubtotal items := by
  unfold specSubtotal handleItemChange
  rw [List.map_map]
  congr 1
  apply List.map_congr_left
  intro item _
  by_cases h : item.id = id <;> simp [h, LineItem.setField]

/-- C12: addItem leaves subtotal, taxAmount and total unchanged for every collection and
tax rate (the row it appends has price 0), and so does handleItemChange on the description,
for every id and value. -/
theorem totals_unchanged_by_addItem_and_description (items : List LineItem)
    (invoiceData : InvoiceData) (now id : Int) (value : String) :
    (subtotal (addItem items now) = subtotal items
        ∧ taxAmount (addItem items now) invoiceData = taxAmount items invoiceData
        ∧ total (addItem items now) invoiceData = total items invoiceData)
      ∧ (subtotal (handleItemChange items id Field.description value) = subtotal items
        ∧ taxAmount (handleItemChange items id Field.description value) invoiceData
            = taxAmount items invoiceData
        ∧ total (handleItemChange items id Field.description value) invoiceData
            = total items invoiceData) := by
  have hadd : subtotal (addItem items now) = subtotal items := by
    simp [subtotal, addItem, newItem, List.foldl_append]
  have hdesc : subtotal (handleItemChange items id Field.description value)
      = subtotal items := by
    rw [subtotal_eq_specSubtotal, subtotal_eq_specSubtotal,
      specSubtotal_handleItemChange_description]
  exact ⟨⟨hadd, by simp [taxAmount, hadd], by simp [total, taxAmount, hadd]⟩,
    ⟨hdesc, by simp [taxAmount, hdesc], by simp [total, taxAmount, hdesc]⟩⟩

/-! ## Currency formatting -/

end Factura
